import Mathlib

/-!
Verification of `check_translations.py`, a locale-file consistency checker.

The script reads a reference locale file `en.ts`, extracts its translation
keys with the regex `^\s*(\w+):`, then scans every other `*.ts` file in the
directory, computes the set difference of keys, and prints a report.

We embed the script shallowly: a file is a list of text lines, the
filesystem is a listing plus a partial map from filenames to contents, and
the module body becomes a pure function from the filesystem to the list of
printed lines (`Except` carries the lines printed before an abort).
-/

namespace CheckTranslations

/-- ASCII reading of the regex class `\s` (whitespace). -/
def isSpaceChar (c : Char) : Bool := c.isWhitespace

/-- ASCII reading of the regex class `\w` (letters, digits, underscore). -/
def isWordChar (c : Char) : Bool := c.isAlphanum || c == '_'

/-- `re.search(r'^\s*(\w+):', line)`: strip leading whitespace, take the
maximal run of word characters; the line matches iff the run is non-empty
and is immediately followed by a colon, and the captured group is the run. -/
def lineKey (line : String) : Option String :=
  let rest := line.data.dropWhile isSpaceChar
  let word := rest.takeWhile isWordChar
  if word ≠ [] ∧ (rest.dropWhile isWordChar).head? = some ':' then
    some (String.mk word)
  else
    none

/-- The loop body of `extract_keys`: fold over the lines, inserting each
matched key into the set. -/
def keysOfLines (lines : List String) : Finset String :=
  lines.foldl (fun ks l => match lineKey l with
    | some k => insert k ks
    | none => ks) ∅

/-- A filesystem state: the directory listing as `os.listdir` returns it
(`none` when the directory cannot be listed), and the readable text files
as lines (`none` when a file does not exist or cannot be read). -/
structure FS where
  listing : Option (List String)
  contents : String → Option (List String)

/-- `extract_keys(file_path)`: open the file (failing if unreadable) and
collect the matched keys of its lines into a set. -/
def extract_keys (fs : FS) (path : String) : Except Unit (Finset String) :=
  match fs.contents path with
  | none => .error ()
  | some lines => .ok (keysOfLines lines)

/-- `filename.endswith('.ts')`. -/
def endsWithTs (name : String) : Bool :=
  match name.data.reverse with
  | 's' :: 't' :: '.' :: _ => true
  | _ => false

/-- The `continue` test of the scan loop:
`filename == 'en.ts' or not filename.endswith('.ts')`. -/
def skip (filename : String) : Bool :=
  filename == "en.ts" || !(endsWithTs filename)

/-- The mutable state of the scan loop: `en_keys` and `missing_report`
(an insertion-ordered dict, modelled as an association list). -/
structure LoopState where
  en_keys : Finset String
  missing_report : List (String × Finset String)
  deriving DecidableEq

deriving instance DecidableEq for Except

/-- One iteration of `for filename in os.listdir(locales_dir)`:
skip non-candidates, extract the candidate's keys (failing if unreadable),
compute `missing = en_keys - keys`, and record it when non-empty. -/
def step (fs : FS) (s : LoopState) (filename : String) : Except Unit LoopState :=
  if skip filename then .ok s
  else
    match fs.contents filename with
    | none => .error ()
    | some ls =>
      if s.en_keys \ keysOfLines ls = ∅ then .ok s
      else .ok { s with
        missing_report := s.missing_report ++ [(filename, s.en_keys \ keysOfLines ls)] }

/-- The whole scan loop over the directory listing. -/
def runLoop (fs : FS) (s : LoopState) : List String → Except Unit LoopState
  | [] => .ok s
  | name :: rest =>
    match step fs s name with
    | .error e => .error e
    | .ok s' => runLoop fs s' rest

/-- `sorted(missing)`: the elements of the set in ascending string order. -/
def sortedKeys (s : Finset String) : List String := s.sort (· ≤ ·)

/-- The report-printing tail of the script, as a list of output lines.
`print(f"\nMissing keys in {filename}:")` contributes a blank line and a
header line. -/
def renderReport (report : List (String × Finset String)) : List String :=
  if report = [] then ["All good! No missing keys found."]
  else report.flatMap (fun p =>
    "" :: ("Missing keys in " ++ p.1 ++ ":") ::
      (sortedKeys p.2).map (fun k => " - " ++ k))

/-- The line `print(f"Found {len(en_keys)} keys in en.ts")`. -/
def foundLine (en_keys : Finset String) : String :=
  "Found " ++ toString en_keys.card ++ " keys in en.ts"

/-- The module body: extract the reference keys, print the count, scan the
directory, and print the report.  The result is the list of lines written
to stdout; an aborted run returns `.error` carrying the lines printed
before the unhandled exception. -/
def run (fs : FS) : Except (List String) (List String) :=
  match extract_keys fs "en.ts" with
  | .error _ => .error []
  | .ok en_keys =>
    match fs.listing with
    | none => .error [foundLine en_keys]
    | some names =>
      match runLoop fs { en_keys := en_keys, missing_report := [] } names with
      | .error _ => .error [foundLine en_keys]
      | .ok s => .ok (foundLine en_keys :: renderReport s.missing_report)

/-- Spec-side description of a key declaration: after stripping the leading
whitespace, the line begins with a non-empty run `w` of word characters
immediately followed by a colon, and `k` is that run. -/
def SpecLineKey (l k : String) : Prop :=
  ∃ w rest, k = String.mk w ∧ w ≠ [] ∧ (∀ c ∈ w, isWordChar c = true) ∧
    l.data.dropWhile isSpaceChar = w ++ ':' :: rest

/-- Spec-side description of the recognized suffix: the filename ends with
the three characters `.ts`. -/
def SpecIsTsName (n : String) : Prop := ∃ pre, n.data = pre ++ ['.', 't', 's']

/-- The contribution of a single directory entry to the missing report:
nothing for skipped or unreadable entries, nothing when no key is missing,
and the single record `(name, missing)` otherwise. -/
def entryOf (fs : FS) (E : Finset String) (n : String) : List (String × Finset String) :=
  if skip n then []
  else
    match fs.contents n with
    | none => []
    | some ls =>
      if E \ keysOfLines ls = ∅ then [] else [(n, E \ keysOfLines ls)]

/-- The missing report accumulated over a directory listing. -/
def reportOf (fs : FS) (E : Finset String) (names : List String) :
    List (String × Finset String) :=
  names.flatMap (entryOf fs E)

/-- A concrete filesystem: reference keys `{a, b, c}`, one candidate
`fr.ts` with keys `{a, c}`. -/
def fs2 : FS where
  listing := some ["fr.ts"]
  contents := fun n =>
    if n = "en.ts" then some ["a: 1", "b: 2", "c: 3"]
    else if n = "fr.ts" then some ["a: 1", "c: 3"]
    else none

/-- A concrete filesystem whose only candidate holds a superset of the
reference keys. -/
def fs3 : FS where
  listing := some ["de.ts"]
  contents := fun n =>
    if n = "en.ts" then some ["a: 1"]
    else if n = "de.ts" then some ["a: 2", "b: 3"]
    else none

/-- A concrete filesystem whose reference file has no matching line. -/
def fs10 : FS where
  listing := some ["de.ts"]
  contents := fun n =>
    if n = "en.ts" then some ["nothing here"]
    else if n = "de.ts" then some ["x: 1"]
    else none

/-- A filesystem with no readable reference file. -/
def fsE : FS where
  listing := some []
  contents := fun _ => none

/-- A filesystem whose candidate `de.ts` is listed but unreadable. -/
def fs6 : FS where
  listing := some ["de.ts"]
  contents := fun n => if n = "en.ts" then some ["a: 1"] else none

lemma takeWhile_word_append (w r' : List Char) (hw : ∀ c ∈ w, isWordChar c = true) :
    (w ++ ':' :: r').takeWhile isWordChar = w ∧
      (w ++ ':' :: r').dropWhile isWordChar = ':' :: r' := by
  induction w with
  | nil => simp [List.takeWhile, List.dropWhile, isWordChar]
  | cons c w ih =>
    have hc : isWordChar c = true := hw c (List.mem_cons_self c w)
    have ih' := ih (fun x hx => hw x (List.mem_cons_of_mem c hx))
    simp [List.takeWhile, List.dropWhile, hc, ih'.1, ih'.2]

lemma lineKey_eq_some_iff (l k : String) :
    lineKey l = some k ↔ SpecLineKey l k := by
  unfold lineKey SpecLineKey
  set rest := l.data.dropWhile isSpaceChar with hrest
  by_cases h : rest.takeWhile isWordChar ≠ [] ∧
      (rest.dropWhile isWordChar).head? = some ':'
  · rw [if_pos h, Option.some_inj]
    constructor
    · rintro rfl
      refine ⟨rest.takeWhile isWordChar, (rest.dropWhile isWordChar).tail,
        rfl, h.1, fun c hc => List.mem_takeWhile_imp hc, ?_⟩
      have hd : rest.dropWhile isWordChar = ':' :: (rest.dropWhile isWordChar).tail := by
        cases hdw : rest.dropWhile isWordChar with
        | nil => rw [hdw] at h; simp at h
        | cons a t =>
          rw [hdw] at h
          simp only [List.head?] at h
          obtain ⟨-, ha⟩ := h
          cases ha
          rfl
      conv_lhs => rw [← List.takeWhile_append_dropWhile (p := isWordChar) (l := rest), hd]
    · rintro ⟨w, r', rfl, hw, hmem, heq⟩
      have hta := takeWhile_word_append w r' hmem
      rw [heq, hta.1]
  · rw [if_neg h]
    constructor
    · intro hk
      exact Option.noConfusion hk
    · rintro ⟨w, r', rfl, hw, hmem, heq⟩
      have hta := takeWhile_word_append w r' hmem
      rw [heq] at h
      exact absurd ⟨by rw [hta.1]; exact hw, by rw [hta.2]; rfl⟩ h

lemma mem_keysOfLines_foldl (lines : List String) (acc : Finset String) (k : String) :
    k ∈ lines.foldl (fun ks l => match lineKey l with
      | some k => insert k ks
      | none => ks) acc ↔ k ∈ acc ∨ ∃ l ∈ lines, lineKey l = some k := by
  induction lines generalizing acc with
  | nil => simp
  | cons l rest ih =>
    cases h : lineKey l with
    | none =>
      simp only [List.foldl_cons, h, ih, List.mem_cons]
      constructor
      · rintro (hk | hk)
        · exact Or.inl hk
        · exact Or.inr ⟨hk.choose, Or.inr hk.choose_spec.1, hk.choose_spec.2⟩
      · rintro (hk | ⟨l', hl' | hl', hk⟩)
        · exact Or.inl hk
        · subst hl'; rw [h] at hk; cases hk
        · exact Or.inr ⟨l', hl', hk⟩
    | some k' =>
      simp only [List.foldl_cons, h, ih, Finset.mem_insert, List.mem_cons]
      constructor
      · rintro ((hk | hk) | hk)
        · exact Or.inr ⟨l, Or.inl rfl, by rw [h, hk]⟩
        · exact Or.inl hk
        · exact Or.inr ⟨hk.choose, Or.inr hk.choose_spec.1, hk.choose_spec.2⟩
      · rintro (hk | ⟨l', hl' | hl', hk⟩)
        · exact Or.inl (Or.inr hk)
        · subst hl'; rw [h] at hk; exact Or.inl (Or.inl (Option.some_inj.mp hk).symm)
        · exact Or.inr ⟨l', hl', hk⟩

lemma mem_keysOfLines (lines : List String) (k : String) :
    k ∈ keysOfLines lines ↔ ∃ l ∈ lines, lineKey l = some k := by
  rw [keysOfLines, mem_keysOfLines_foldl]
  simp

lemma step_ok_eq {fs : FS} {s : LoopState} {n : String} {s' : LoopState}
    (h : step fs s n = .ok s') :
    s' = ⟨s.en_keys, s.missing_report ++ entryOf fs s.en_keys n⟩ := by
  unfold step at h
  unfold entryOf
  by_cases hs : skip n
  · rw [if_pos hs] at h
    rw [if_pos hs, List.append_nil]
    cases h
    rfl
  · rw [if_neg hs] at h
    rw [if_neg hs]
    cases hc : fs.contents n with
    | none => rw [hc] at h; cases h
    | some ls =>
      rw [hc] at h
      dsimp only at h ⊢
      by_cases hm : s.en_keys \ keysOfLines ls = ∅
      · rw [if_pos hm] at h
        rw [if_pos hm, List.append_nil]
        cases h
        rfl
      · rw [if_neg hm] at h
        rw [if_neg hm]
        cases h
        rfl

lemma step_readable {fs : FS} {s : LoopState} {n : String} {s' : LoopState}
    (h : step fs s n = .ok s') (hn : skip n = false) : fs.contents n ≠ none := by
  intro hc
  unfold step at h
  rw [if_neg (by simp [hn]), hc] at h
  cases h

lemma step_ok_of_readable (fs : FS) (s : LoopState) (n : String)
    (h : skip n = false → fs.contents n ≠ none) :
    step fs s n = .ok ⟨s.en_keys, s.missing_report ++ entryOf fs s.en_keys n⟩ := by
  unfold step entryOf
  by_cases hs : skip n
  · rw [if_pos hs, if_pos hs, List.append_nil]
  · rw [if_neg hs, if_neg hs]
    cases hc : fs.contents n with
    | none => exact absurd hc (h (Bool.eq_false_iff.mpr hs))
    | some ls =>
      dsimp only
      by_cases hm : s.en_keys \ keysOfLines ls = ∅
      · rw [if_pos hm, if_pos hm, List.append_nil]
      · rw [if_neg hm, if_neg hm]

lemma runLoop_ok_inv {fs : FS} {s : LoopState} {names : List String} {s' : LoopState}
    (h : runLoop fs s names = .ok s') :
    s'.en_keys = s.en_keys ∧
      s'.missing_report = s.missing_report ++ reportOf fs s.en_keys names ∧
      ∀ n ∈ names, skip n = false → fs.contents n ≠ none := by
  induction names generalizing s with
  | nil =>
    unfold runLoop at h
    cases h
    exact ⟨rfl, by simp [reportOf], by simp⟩
  | cons n rest ih =>
    unfold runLoop at h
    cases hstep : step fs s n with
    | error e => rw [hstep] at h; cases h
    | ok s₁ =>
      rw [hstep] at h
      obtain ⟨h1, h2, h3⟩ := ih h
      have hs₁ := step_ok_eq hstep
      subst hs₁
      refine ⟨h1, ?_, ?_⟩
      · rw [h2]
        simp [reportOf, List.flatMap_cons, List.append_assoc]
      · intro m hm hms
        rcases List.mem_cons.mp hm with rfl | hm'
        · exact step_readable hstep hms
        · exact h3 m hm' hms

lemma runLoop_eq_ok (fs : FS) (s : LoopState) (names : List String)
    (h : ∀ n ∈ names, skip n = false → fs.contents n ≠ none) :
    runLoop fs s names = .ok ⟨s.en_keys, s.missing_report ++ reportOf fs s.en_keys names⟩ := by
  induction names generalizing s with
  | nil =>
    unfold runLoop
    cases s
    simp [reportOf]
  | cons n rest ih =>
    unfold runLoop
    rw [step_ok_of_readable fs s n (h n (List.mem_cons_self n rest))]
    show runLoop fs ⟨s.en_keys, s.missing_report ++ entryOf fs s.en_keys n⟩ rest = _
    rw [ih _ (fun m hm => h m (List.mem_cons_of_mem n hm))]
    simp [reportOf, List.flatMap_cons, List.append_assoc]

lemma runLoop_congr (fs fs' : FS) (s : LoopState) (names : List String)
    (h : ∀ n ∈ names, skip n = false → fs.contents n = fs'.contents n) :
    runLoop fs s names = runLoop fs' s names := by
  induction names generalizing s with
  | nil => rfl
  | cons n rest ih =>
    unfold runLoop
    have hstep : step fs s n = step fs' s n := by
      unfold step
      by_cases hs : skip n
      · rw [if_pos hs, if_pos hs]
      · rw [if_neg hs, if_neg hs,
          h n (List.mem_cons_self n rest) (Bool.eq_false_iff.mpr hs)]
    rw [← hstep]
    cases step fs s n with
    | error e => rfl
    | ok s₁ => exact ih s₁ (fun m hm => h m (List.mem_cons_of_mem n hm))

lemma mem_entryOf (fs : FS) (E : Finset String) (n name : String) (m : Finset String) :
    (name, m) ∈ entryOf fs E n ↔
      name = n ∧ skip n = false ∧ ∃ ls, fs.contents n = some ls ∧
        m = E \ keysOfLines ls ∧ m ≠ ∅ := by
  unfold entryOf
  by_cases hs : skip n
  · rw [if_pos hs]
    simp [hs]
  · rw [if_neg hs]
    have hsf : skip n = false := Bool.eq_false_iff.mpr hs
    cases hc : fs.contents n with
    | none => simp
    | some ls =>
      dsimp only
      by_cases hm : E \ keysOfLines ls = ∅
      · rw [if_pos hm]
        simp only [List.not_mem_nil, false_iff]
        rintro ⟨rfl, -, ls', hls', rfl, hne⟩
        cases hls'
        exact hne hm
      · rw [if_neg hm]
        simp only [List.mem_singleton, Prod.mk.injEq]
        constructor
        · rintro ⟨rfl, rfl⟩
          exact ⟨rfl, hsf, ls, rfl, rfl, hm⟩
        · rintro ⟨rfl, -, ls', hls', rfl, -⟩
          cases hls'
          exact ⟨rfl, rfl⟩

lemma mem_reportOf (fs : FS) (E : Finset String) (names : List String)
    (name : String) (m : Finset String) :
    (name, m) ∈ reportOf fs E names ↔
      name ∈ names ∧ skip name = false ∧ ∃ ls, fs.contents name = some ls ∧
        m = E \ keysOfLines ls ∧ m ≠ ∅ := by
  induction names with
  | nil => simp [reportOf]
  | cons n rest ih =>
    rw [reportOf, List.flatMap_cons, List.mem_append]
    rw [reportOf] at ih
    rw [mem_entryOf, ih]
    constructor
    · rintro (⟨rfl, hsf, hex⟩ | ⟨hmem, hsf, hex⟩)
      · exact ⟨List.mem_cons_self _ _, hsf, hex⟩
      · exact ⟨List.mem_cons_of_mem _ hmem, hsf, hex⟩
    · rintro ⟨hmem, hsf, hex⟩
      rcases List.mem_cons.mp hmem with rfl | hmem'
      · exact Or.inl ⟨rfl, hsf, hex⟩
      · exact Or.inr ⟨hmem', hsf, hex⟩

lemma reportOf_eq_nil (fs : FS) (E : Finset String) (names : List String)
    (h : ∀ n ∈ names, skip n = false →
      ∀ ls, fs.contents n = some ls → E ⊆ keysOfLines ls) :
    reportOf fs E names = [] := by
  induction names with
  | nil => rfl
  | cons n rest ih =>
    rw [reportOf, List.flatMap_cons]
    rw [reportOf] at ih
    rw [ih (fun m hm => h m (List.mem_cons_of_mem n hm)), List.append_nil]
    unfold entryOf
    by_cases hs : skip n
    · rw [if_pos hs]
    · rw [if_neg hs]
      have hsf : skip n = false := Bool.eq_false_iff.mpr hs
      cases hc : fs.contents n with
      | none => rfl
      | some ls =>
        dsimp only
        rw [if_pos (Finset.sdiff_eq_empty_iff_subset.mpr
          (h n (List.mem_cons_self n rest) hsf ls hc))]

lemma run_eq_ok (fs : FS) (ls : List String) (names : List String)
    (h1 : fs.contents "en.ts" = some ls) (h2 : fs.listing = some names)
    (h3 : ∀ n ∈ names, skip n = false → fs.contents n ≠ none) :
    run fs = .ok (foundLine (keysOfLines ls) ::
      renderReport (reportOf fs (keysOfLines ls) names)) := by
  unfold run extract_keys
  rw [h1]
  dsimp only
  rw [h2]
  dsimp only
  rw [runLoop_eq_ok fs _ names h3]
  dsimp only
  rw [List.nil_append]

lemma run_error_en (fs : FS) (h : fs.contents "en.ts" = none) :
    run fs = .error [] := by
  unfold run extract_keys
  rw [h]

lemma run_error_listing (fs : FS) (ls : List String)
    (h1 : fs.contents "en.ts" = some ls) (h2 : fs.listing = none) :
    run fs = .error [foundLine (keysOfLines ls)] := by
  unfold run extract_keys
  rw [h1]
  dsimp only
  rw [h2]

lemma run_error_candidate (fs : FS) (ls : List String) (names : List String) (n : String)
    (h1 : fs.contents "en.ts" = some ls) (h2 : fs.listing = some names)
    (hn : n ∈ names) (hs : skip n = false) (hc : fs.contents n = none) :
    run fs = .error [foundLine (keysOfLines ls)] := by
  unfold run extract_keys
  rw [h1]
  dsimp only
  rw [h2]
  dsimp only
  cases hres : runLoop fs ⟨keysOfLines ls, []⟩ names with
  | error e => rfl
  | ok s' => exact absurd hc ((runLoop_ok_inv hres).2.2 n hn hs)

lemma run_error_shape (fs : FS) (e : List String) (h : run fs = .error e) :
    e = [] ∨ ∃ ls, fs.contents "en.ts" = some ls ∧
      e = [foundLine (keysOfLines ls)] := by
  unfold run extract_keys at h
  cases hc : fs.contents "en.ts" with
  | none =>
    rw [hc] at h
    dsimp only at h
    cases h
    exact Or.inl rfl
  | some ls =>
    rw [hc] at h
    dsimp only at h
    cases hl : fs.listing with
    | none =>
      rw [hl] at h
      dsimp only at h
      cases h
      exact Or.inr ⟨ls, rfl, rfl⟩
    | some names =>
      rw [hl] at h
      dsimp only at h
      cases hres : runLoop fs ⟨keysOfLines ls, []⟩ names with
      | error err =>
        rw [hres] at h
        dsimp only at h
        cases h
        exact Or.inr ⟨ls, rfl, rfl⟩
      | ok s' =>
        rw [hres] at h
        dsimp only at h
        cases h

lemma string_data_append (s t : String) : (s ++ t).data = s.data ++ t.data := rfl

lemma string_append_cancel_left {s t t' : String} (h : s ++ t = s ++ t') : t = t' := by
  have hd := congrArg String.data h
  rw [string_data_append, string_data_append] at hd
  exact congrArg String.mk (List.append_cancel_left hd)

lemma string_append_cancel_both {pre n suf n' : String}
    (h : pre ++ n ++ suf = pre ++ n' ++ suf) : n = n' := by
  have hd := congrArg String.data h
  rw [string_data_append, string_data_append, string_data_append,
    string_data_append] at hd
  exact congrArg String.mk (List.append_cancel_left (List.append_cancel_right hd))

lemma ne_of_head {s t : String} {a b : Char} (hs : s.data.head? = some a)
    (ht : t.data.head? = some b) (hab : a ≠ b) : s ≠ t := by
  intro h
  rw [h, ht] at hs
  exact hab (Option.some_inj.mp hs).symm

lemma head_key_line (k : String) : (" - " ++ k).data.head? = some ' ' := rfl

lemma head_header_line (n : String) :
    ("Missing keys in " ++ n ++ ":").data.head? = some 'M' := rfl

lemma head_found_line (E : Finset String) : (foundLine E).data.head? = some 'F' := rfl

lemma head_all_good : ("All good! No missing keys found." : String).data.head? = some 'A' := rfl

lemma mem_renderReport (report : List (String × Finset String)) (line : String)
    (h : line ∈ renderReport report) :
    line = "All good! No missing keys found." ∨ line = "" ∨
      (∃ p ∈ report, line = "Missing keys in " ++ p.1 ++ ":") ∨
      (∃ p ∈ report, ∃ k ∈ sortedKeys p.2, line = " - " ++ k) := by
  unfold renderReport at h
  by_cases hr : report = []
  · rw [if_pos hr] at h
    rw [List.mem_singleton] at h
    exact Or.inl h
  · rw [if_neg hr, List.mem_flatMap] at h
    obtain ⟨p, hp, hline⟩ := h
    rcases List.mem_cons.mp hline with rfl | hline'
    · exact Or.inr (Or.inl rfl)
    · rcases List.mem_cons.mp hline' with rfl | hline''
      · exact Or.inr (Or.inr (Or.inl ⟨p, hp, rfl⟩))
      · rw [List.mem_map] at hline''
        obtain ⟨k, hk, rfl⟩ := hline''
        exact Or.inr (Or.inr (Or.inr ⟨p, hp, k, hk, rfl⟩))

lemma endsWithTs_iff (n : String) : endsWithTs n = true ↔ SpecIsTsName n := by
  constructor
  · intro h
    unfold endsWithTs at h
    split at h
    · rename_i rest hr
      refine ⟨rest.reverse, ?_⟩
      have : n.data = n.data.reverse.reverse := (List.reverse_reverse _).symm
      rw [this, hr]
      simp
    · cases h
  · rintro ⟨pre, hp⟩
    unfold endsWithTs
    rw [hp]
    simp [List.reverse_append]

lemma skip_eq_false_iff (n : String) :
    skip n = false ↔ SpecIsTsName n ∧ n ≠ "en.ts" := by
  unfold skip
  rw [Bool.or_eq_false_iff, ← endsWithTs_iff]
  constructor
  · rintro ⟨h1, h2⟩
    refine ⟨?_, ?_⟩
    · cases he : endsWithTs n with
      | true => rfl
      | false => rw [he] at h2; cases h2
    · intro he
      rw [he] at h1
      cases h1
  · rintro ⟨h1, h2⟩
    refine ⟨?_, by rw [h1]; rfl⟩
    cases hb : (n == "en.ts") with
    | true => exact absurd (eq_of_beq hb) h2
    | false => rfl

lemma sortedKeys_of_sorted (l : List String) (hnd : l.Nodup) (hs : l.Sorted (· ≤ ·)) :
    sortedKeys l.toFinset = l := (List.toFinset_sort _ hnd).mpr hs

lemma renderReport_single (n : String) (m : Finset String) :
    renderReport [(n, m)] = "" :: ("Missing keys in " ++ n ++ ":") ::
      (sortedKeys m).map (fun k => " - " ++ k) := by
  rw [renderReport, if_neg (by simp)]
  simp [List.flatMap_cons]

lemma sortedKeys_b : sortedKeys ({"b"} : Finset String) = ["b"] := by
  have he : ({"b"} : Finset String) = (["b"] : List String).toFinset := by decide
  rw [he, sortedKeys_of_sorted _ (by decide) (by decide)]

lemma run_fs2_eq : run fs2 = Except.ok
    ["Found 3 keys in en.ts", "", "Missing keys in fr.ts:", " - b"] := by
  rw [run_eq_ok fs2 ["a: 1", "b: 2", "c: 3"] ["fr.ts"] (by decide) rfl (by decide)]
  rw [show reportOf fs2 (keysOfLines ["a: 1", "b: 2", "c: 3"]) ["fr.ts"]
      = [("fr.ts", {"b"})] from by decide]
  rw [renderReport_single, sortedKeys_b]
  exact congrArg Except.ok (by decide)

lemma run_ok_elim {fs : FS} {out : List String} (h : run fs = .ok out) :
    ∃ ls names, fs.contents "en.ts" = some ls ∧ fs.listing = some names ∧
      (∀ n ∈ names, skip n = false → fs.contents n ≠ none) ∧
      out = foundLine (keysOfLines ls) ::
        renderReport (reportOf fs (keysOfLines ls) names) := by
  unfold run extract_keys at h
  cases hc : fs.contents "en.ts" with
  | none => rw [hc] at h; dsimp only at h; cases h
  | some ls =>
    rw [hc] at h
    dsimp only at h
    cases hl : fs.listing with
    | none => rw [hl] at h; dsimp only at h; cases h
    | some names =>
      rw [hl] at h
      dsimp only at h
      cases hres : runLoop fs ⟨keysOfLines ls, []⟩ names with
      | error e => rw [hres] at h; dsimp only at h; cases h
      | ok s' =>
        rw [hres] at h
        dsimp only at h
        obtain ⟨-, e2, e3⟩ := runLoop_ok_inv hres
        cases h
        refine ⟨ls, names, rfl, rfl, e3, ?_⟩
        rw [e2]
        dsimp only
        rw [List.nil_append]

lemma ne_empty_of_head {s : String} {a : Char} (hs : s.data.head? = some a) :
    s ≠ "" := by
  intro h
  rw [h] at hs
  cases hs

lemma mem_sortedKeys {s : Finset String} {k : String} :
    k ∈ sortedKeys s ↔ k ∈ s := Finset.mem_sort _

lemma str_le_of_data_lt {s t : String} (h : s.toList < t.toList) : s ≤ t :=
  le_of_lt (String.lt_iff_toList_lt.mpr h)

lemma sorted_zam : List.Sorted (· ≤ ·) (["alpha", "mu", "zeta"] : List String) := by
  have ham : ("alpha" : String) ≤ "mu" := str_le_of_data_lt (by decide)
  have haz : ("alpha" : String) ≤ "zeta" := str_le_of_data_lt (by decide)
  have hmz : ("mu" : String) ≤ "zeta" := str_le_of_data_lt (by decide)
  refine List.sorted_cons.mpr ⟨?_, List.sorted_cons.mpr ⟨?_, List.sorted_singleton _⟩⟩
  · intro b hb
    rcases List.mem_cons.mp hb with rfl | hb'
    · exact ham
    · rw [List.mem_singleton] at hb'
      subst hb'
      exact haz
  · intro b hb
    rw [List.mem_singleton] at hb
    subst hb
    exact hmz

lemma sortedKeys_zam :
    sortedKeys ({"zeta", "alpha", "mu"} : Finset String) = ["alpha", "mu", "zeta"] := by
  have he : ({"zeta", "alpha", "mu"} : Finset String)
      = (["alpha", "mu", "zeta"] : List String).toFinset := by decide
  rw [he, sortedKeys_of_sorted _ (by decide) sorted_zam]

/-- C1: `extract_keys` returns exactly the set of word-runs `w` such that some
line of the file, after stripping any leading whitespace, begins with `w`
(a non-empty run of word characters) immediately followed by a colon; the
matching run of a line is unique, so each line contributes at most one key;
and on the lines `"  foo: bar"`, `"baz: qux"`, `"not_a_key line"`,
`"  123abc: x"` the result is exactly `{foo, baz, 123abc}`. -/
theorem keyExtractor_exact :
    (∀ lines k, k ∈ keysOfLines lines ↔ ∃ l ∈ lines, SpecLineKey l k) ∧
    (∀ l k k', SpecLineKey l k → SpecLineKey l k' → k = k') ∧
    keysOfLines ["  foo: bar", "baz: qux", "not_a_key line", "  123abc: x"]
      = {"foo", "baz", "123abc"} := by
  refine ⟨fun lines k => ?_, fun l k k' hk hk' => ?_, by decide⟩
  · rw [mem_keysOfLines]
    exact exists_congr fun l => and_congr_right fun _ => lineKey_eq_some_iff l k
  · obtain ⟨w, r, rfl, hw, hm, he⟩ := hk
    obtain ⟨w', r', rfl, hw', hm', he'⟩ := hk'
    have h2 : w ++ ':' :: r = w' ++ ':' :: r' := he.symm.trans he'
    have t1 := (takeWhile_word_append w r hm).1
    have t2 := (takeWhile_word_append w' r' hm').1
    rw [h2, t2] at t1
    exact congrArg String.mk t1.symm

/-- Witness for C1: a concrete key extraction and a concrete uniqueness
instance, obtained by applying the theorem. -/
theorem keyExtractor_exact_witness :
    "foo" ∈ keysOfLines ["  foo: bar"] ∧ ("foo" : String) = "foo" := by
  constructor
  · exact (keyExtractor_exact.1 ["  foo: bar"] "foo").mpr
      ⟨"  foo: bar", List.mem_singleton.mpr rfl,
        ⟨['f', 'o', 'o'], [' ', 'b', 'a', 'r'], rfl, by decide, by decide, by decide⟩⟩
  · exact keyExtractor_exact.2.1 "foo: x" "foo" "foo"
      ⟨['f', 'o', 'o'], [' ', 'x'], rfl, by decide, by decide, by decide⟩
      ⟨['f', 'o', 'o'], [' ', 'x'], rfl, by decide, by decide, by decide⟩

/-- C2: a candidate is recorded in the missing report if and only if the set
difference `en_keys \ keys` is non-empty, and the recorded set is exactly
that difference; with reference keys `{a, b, c}` and candidate keys
`{a, c}` the program reports exactly the key `b`. -/
theorem missingReport_iff :
    (∀ (fs : FS) (E : Finset String) (names : List String) (s' : LoopState),
      runLoop fs ⟨E, []⟩ names = .ok s' →
      ∀ name m, ((name, m) ∈ s'.missing_report ↔
        name ∈ names ∧ skip name = false ∧ ∃ ls, fs.contents name = some ls ∧
          m = E \ keysOfLines ls ∧ m ≠ ∅)) ∧
    run fs2 = .ok ["Found 3 keys in en.ts", "", "Missing keys in fr.ts:", " - b"] := by
  refine ⟨fun fs E names s' h name m => ?_, run_fs2_eq⟩
  obtain ⟨-, h2, -⟩ := runLoop_ok_inv h
  rw [h2]
  dsimp only
  rw [List.nil_append, mem_reportOf]

/-- Witness for C2: the characterization applied to a concrete run with
reference keys `{a, b, c}` and candidate keys `{a, c}`. -/
theorem missingReport_iff_witness :
    (("fr.ts", ({"b"} : Finset String)) ∈ [(("fr.ts" : String), ({"b"} : Finset String))] ↔
      ("fr.ts" : String) ∈ ["fr.ts"] ∧ skip "fr.ts" = false ∧
        ∃ ls, fs2.contents "fr.ts" = some ls ∧
          ({"b"} : Finset String) = {"a", "b", "c"} \ keysOfLines ls ∧
          ({"b"} : Finset String) ≠ ∅) :=
  missingReport_iff.1 fs2 {"a", "b", "c"} ["fr.ts"]
    ⟨{"a", "b", "c"}, [("fr.ts", {"b"})]⟩ (by decide) "fr.ts" {"b"}

/-- C3: when every candidate's KeySet contains the reference KeySet, the
entire standard output is exactly the `Found N keys in en.ts` line (N the
reference cardinality) followed by the `All good!` line. -/
theorem allGood_output (fs : FS) (ls : List String) (names : List String)
    (h1 : fs.contents "en.ts" = some ls) (h2 : fs.listing = some names)
    (h3 : ∀ n ∈ names, skip n = false → fs.contents n ≠ none)
    (h4 : ∀ n ∈ names, skip n = false →
      ∀ cls, fs.contents n = some cls → keysOfLines ls ⊆ keysOfLines cls) :
    run fs = .ok ["Found " ++ toString (keysOfLines ls).card ++ " keys in en.ts",
      "All good! No missing keys found."] := by
  rw [run_eq_ok fs ls names h1 h2 h3, reportOf_eq_nil fs _ names h4]
  rfl

/-- Witness for C3: a concrete run with a superset candidate. -/
theorem allGood_output_witness :
    run fs3 = .ok ["Found " ++ toString (keysOfLines ["a: 1"]).card ++ " keys in en.ts",
      "All good! No missing keys found."] := by
  refine allGood_output fs3 ["a: 1"] ["de.ts"] (by decide) rfl (by decide) ?_
  intro n hn hs cls hc
  rw [List.mem_singleton] at hn
  subst hn
  rw [show fs3.contents "de.ts" = some ["a: 2", "b: 3"] from by decide] at hc
  cases hc
  decide

/-- C10: an empty reference KeySet makes every missing set empty, so for any
readable candidates the output is `Found 0 keys in en.ts` then `All good!`. -/
theorem empty_reference_all_good (fs : FS) (ls : List String) (names : List String)
    (h1 : fs.contents "en.ts" = some ls) (hE : keysOfLines ls = ∅)
    (h2 : fs.listing = some names)
    (h3 : ∀ n ∈ names, skip n = false → fs.contents n ≠ none) :
    run fs = .ok ["Found 0 keys in en.ts", "All good! No missing keys found."] := by
  rw [run_eq_ok fs ls names h1 h2 h3]
  rw [reportOf_eq_nil fs _ names
    (fun n hn hs cls hc => by rw [hE]; exact Finset.empty_subset _)]
  rw [hE]
  rfl

/-- Witness for C10: a concrete run with an empty reference KeySet. -/
theorem empty_reference_all_good_witness :
    run fs10 = .ok ["Found 0 keys in en.ts", "All good! No missing keys found."] :=
  empty_reference_all_good fs10 ["nothing here"] ["de.ts"]
    (by decide) (by decide) rfl (by decide)

/-- C4: with a non-empty report, the output is the Found line followed, for
each recorded file in insertion order, by a blank line, the header
`Missing keys in <filename>:`, and one ` - <key>` line per missing key in
strictly ascending order with no repetition; missing keys
`{zeta, alpha, mu}` render as alpha, mu, zeta. -/
theorem report_rendering :
    (∀ (fs : FS) (ls : List String) (names : List String) (out : List String)
      (report : List (String × Finset String)),
      fs.contents "en.ts" = some ls → fs.listing = some names →
      reportOf fs (keysOfLines ls) names = report → report ≠ [] →
      run fs = .ok out →
      (out = ("Found " ++ toString (keysOfLines ls).card ++ " keys in en.ts") ::
        report.flatMap (fun p => "" :: ("Missing keys in " ++ p.1 ++ ":") ::
          (sortedKeys p.2).map (fun k => " - " ++ k)) ∧
      ∀ p ∈ report, (sortedKeys p.2).Sorted (· < ·) ∧ (sortedKeys p.2).toFinset = p.2)) ∧
    renderReport [("de.ts", {"zeta", "alpha", "mu"})] =
      ["", "Missing keys in de.ts:", " - alpha", " - mu", " - zeta"] := by
  constructor
  · intro fs ls names out report h1 h2 h3 h4 h5
    obtain ⟨ls0, names0, e1, e2, e3, e4⟩ := run_ok_elim h5
    have hls : ls0 = ls := Option.some_inj.mp (e1.symm.trans h1)
    have hnames : names0 = names := Option.some_inj.mp (e2.symm.trans h2)
    subst hls
    subst hnames
    refine ⟨?_, fun p hp => ⟨Finset.sort_sorted_lt p.2, Finset.sort_toFinset _ p.2⟩⟩
    rw [e4, h3, renderReport, if_neg h4]
    rfl
  · rw [renderReport_single, sortedKeys_zam]
    decide

/-- Witness for C4: the rendering law applied to a concrete run with one
candidate missing the key `b`. -/
theorem report_rendering_witness :
    ["Found 3 keys in en.ts", "", "Missing keys in fr.ts:", " - b"]
        = ("Found " ++ toString (keysOfLines ["a: 1", "b: 2", "c: 3"]).card ++ " keys in en.ts") ::
          [(("fr.ts" : String), ({"b"} : Finset String))].flatMap
            (fun p => "" :: ("Missing keys in " ++ p.1 ++ ":") ::
              (sortedKeys p.2).map (fun k => " - " ++ k)) ∧
      ∀ p ∈ [(("fr.ts" : String), ({"b"} : Finset String))],
        (sortedKeys p.2).Sorted (· < ·) ∧ (sortedKeys p.2).toFinset = p.2 :=
  report_rendering.1 fs2 ["a: 1", "b: 2", "c: 3"] ["fr.ts"]
    ["Found 3 keys in en.ts", "", "Missing keys in fr.ts:", " - b"]
    [("fr.ts", {"b"})] (by decide) rfl (by decide) (by decide) run_fs2_eq

/-- C6: every file-access failure is fatal: an unreadable reference file, an
unlistable directory, or an unreadable candidate each make the run abort
with an error, and the output of an aborted run never contains a
missing-keys header or a key line (no partial report, no skipping). -/
theorem failures_fatal :
    (∀ fs : FS, fs.contents "en.ts" = none → run fs = .error []) ∧
    (∀ (fs : FS) (ls : List String), fs.contents "en.ts" = some ls →
      fs.listing = none → run fs = .error [foundLine (keysOfLines ls)]) ∧
    (∀ (fs : FS) (ls : List String) (names : List String) (n : String),
      fs.contents "en.ts" = some ls → fs.listing = some names →
      n ∈ names → skip n = false → fs.contents n = none →
      run fs = .error [foundLine (keysOfLines ls)]) ∧
    (∀ (fs : FS) (e : List String), run fs = .error e → ∀ line ∈ e,
      ∀ x : String, line ≠ "Missing keys in " ++ x ++ ":" ∧ line ≠ " - " ++ x) := by
  refine ⟨run_error_en, run_error_listing, run_error_candidate, ?_⟩
  intro fs e h line hline x
  rcases run_error_shape fs e h with rfl | ⟨ls, -, rfl⟩
  · cases hline
  · rw [List.mem_singleton] at hline
    subst hline
    constructor
    · exact ne_of_head (head_found_line _) (head_header_line x) (by decide)
    · exact ne_of_head (head_found_line _) (head_key_line x) (by decide)

/-- Witness for C6: concrete aborts for an unreadable reference file and for
an unreadable candidate file. -/
theorem failures_fatal_witness :
    run fsE = .error [] ∧ run fs6 = .error [foundLine (keysOfLines ["a: 1"])] :=
  ⟨failures_fatal.1 fsE rfl,
    failures_fatal.2.2.1 fs6 ["a: 1"] ["de.ts"] "de.ts" (by decide) rfl
      (by decide) (by decide) (by decide)⟩

/-- C7: determinism — two runs over a filesystem with identical enumeration
and identical file contents produce identical output. -/
theorem run_deterministic (fs fs' : FS) (h1 : fs.listing = fs'.listing)
    (h2 : ∀ n, fs.contents n = fs'.contents n) : run fs = run fs' := by
  have he : fs = fs' := by
    cases fs
    cases fs'
    simp only [FS.mk.injEq]
    exact ⟨h1, funext h2⟩
  rw [he]

/-- Witness for C7: the determinism law applied to a concrete filesystem. -/
theorem run_deterministic_witness : run fs2 = run fs2 :=
  run_deterministic fs2 fs2 rfl (fun _ => rfl)

/-- C8: the reference KeySet is never mutated: every completed scan leaves
`en_keys` exactly as it started, and a scan that started from the keys
extracted from the reference file ends with exactly those keys. -/
theorem en_keys_immutable :
    (∀ (fs : FS) (s : LoopState) (names : List String) (s' : LoopState),
      runLoop fs s names = .ok s' → s'.en_keys = s.en_keys) ∧
    (∀ (fs : FS) (E : Finset String) (names : List String) (s' : LoopState),
      extract_keys fs "en.ts" = .ok E → runLoop fs ⟨E, []⟩ names = .ok s' →
      s'.en_keys = E) :=
  ⟨fun _ _ _ _ h => (runLoop_ok_inv h).1,
    fun _ _ _ _ _ h => (runLoop_ok_inv h).1⟩

/-- Witness for C8: after a concrete scan that records a missing key, the
state still carries the initial reference keys. -/
theorem en_keys_immutable_witness :
    (LoopState.mk {"a", "b", "c"} [("fr.ts", {"b"})]).en_keys
      = (LoopState.mk {"a", "b", "c"} []).en_keys :=
  en_keys_immutable.1 fs2 ⟨{"a", "b", "c"}, []⟩ ["fr.ts"]
    ⟨{"a", "b", "c"}, [("fr.ts", {"b"})]⟩ (by decide)

/-- C5: a directory entry is scanned as a candidate iff its name ends in
`.ts` and differs from `en.ts`; the run never depends on the contents of
any other entry, reported filenames are always candidates, and concretely
`readme.md` and `en.ts` are skipped while `de.ts` is not. -/
theorem candidate_selection :
    (∀ n, skip n = false ↔ SpecIsTsName n ∧ n ≠ "en.ts") ∧
    (∀ fs fs' : FS, fs.listing = fs'.listing →
      fs.contents "en.ts" = fs'.contents "en.ts" →
      (∀ n, skip n = false → fs.contents n = fs'.contents n) →
      run fs = run fs') ∧
    (∀ (fs : FS) (out : List String) (n : String), run fs = .ok out →
      ("Missing keys in " ++ n ++ ":") ∈ out → skip n = false) ∧
    (skip "readme.md" = true ∧ skip "en.ts" = true ∧ skip "de.ts" = false) := by
  refine ⟨skip_eq_false_iff, ?_, ?_, by decide⟩
  · intro fs fs' hl hen hc
    unfold run extract_keys
    rw [← hen, ← hl]
    cases hc2 : fs.contents "en.ts" with
    | none => rfl
    | some ls =>
      dsimp only
      cases hl2 : fs.listing with
      | none => rfl
      | some names =>
        dsimp only
        rw [runLoop_congr fs fs' _ names (fun n _ hs => hc n hs)]
  · intro fs out n h hmem
    obtain ⟨ls, names, e1, e2, e3, e4⟩ := run_ok_elim h
    subst e4
    rcases List.mem_cons.mp hmem with heq | hmem'
    · exact absurd heq (ne_of_head (head_header_line n) (head_found_line _) (by decide))
    · rcases mem_renderReport _ _ hmem' with hA | hE | ⟨p, hp, hline⟩ | ⟨p, hp, k, hk, hline⟩
      · exact absurd hA (ne_of_head (head_header_line n) head_all_good (by decide))
      · exact absurd hE (ne_empty_of_head (head_header_line n))
      · have hn : n = p.1 := string_append_cancel_both hline
        obtain ⟨pn, pm⟩ := p
        rw [mem_reportOf] at hp
        rw [hn]
        exact hp.2.1
      · exact absurd hline (ne_of_head (head_header_line n) (head_key_line k) (by decide))

/-- Witness for C5: from the concrete report for `fr.ts` the theorem
recovers that `fr.ts` is a candidate. -/
theorem candidate_selection_witness : skip "fr.ts" = false :=
  candidate_selection.2.2.1 fs2
    ["Found 3 keys in en.ts", "", "Missing keys in fr.ts:", " - b"] "fr.ts"
    run_fs2_eq (by decide)

/-- C9: the audit is one-directional: every recorded missing set is a subset
of the reference KeySet, enlarging a candidate KeySet only shrinks the
difference, and every ` - <key>` output line names a reference key. -/
theorem audit_one_directional :
    (∀ (fs : FS) (E : Finset String) (names : List String)
      (p : String × Finset String), p ∈ reportOf fs E names → p.2 ⊆ E) ∧
    (∀ (E : Finset String) (ls ls' : List String),
      keysOfLines ls ⊆ keysOfLines ls' →
      E \ keysOfLines ls' ⊆ E \ keysOfLines ls) ∧
    (∀ (fs : FS) (ls : List String) (out : List String) (k : String),
      fs.contents "en.ts" = some ls → run fs = .ok out →
      (" - " ++ k) ∈ out → k ∈ keysOfLines ls) := by
  refine ⟨?_, ?_, ?_⟩
  · rintro fs E names ⟨pn, pm⟩ hp
    rw [mem_reportOf] at hp
    obtain ⟨-, -, cls, -, rfl, -⟩ := hp
    exact Finset.sdiff_subset
  · intro E ls ls' h
    exact Finset.sdiff_subset_sdiff (Finset.Subset.refl E) h
  · intro fs ls out k h1 h5 hmem
    obtain ⟨ls0, names, e1, e2, e3, e4⟩ := run_ok_elim h5
    have hls : ls0 = ls := Option.some_inj.mp (e1.symm.trans h1)
    subst hls
    subst e4
    rcases List.mem_cons.mp hmem with heq | hmem'
    · exact absurd heq (ne_of_head (head_key_line k) (head_found_line _) (by decide))
    · rcases mem_renderReport _ _ hmem' with hA | hE | ⟨p, hp, hline⟩ | ⟨p, hp, k', hk', hline⟩
      · exact absurd hA (ne_of_head (head_key_line k) head_all_good (by decide))
      · exact absurd hE (ne_empty_of_head (head_key_line k))
      · exact absurd hline (ne_of_head (head_key_line k) (head_header_line _) (by decide))
      · have hk2 : k = k' := string_append_cancel_left hline
        subst hk2
        have hsub : p.2 ⊆ keysOfLines ls0 := by
          obtain ⟨pn, pm⟩ := p
          rw [mem_reportOf] at hp
          obtain ⟨-, -, cls, -, rfl, -⟩ := hp
          exact Finset.sdiff_subset
        exact hsub (mem_sortedKeys.mp hk')

/-- Witness for C9: the reported line ` - b` of the concrete run names a key
of the reference file. -/
theorem audit_one_directional_witness :
    "b" ∈ keysOfLines ["a: 1", "b: 2", "c: 3"] :=
  audit_one_directional.2.2 fs2 ["a: 1", "b: 2", "c: 3"]
    ["Found 3 keys in en.ts", "", "Missing keys in fr.ts:", " - b"] "b"
    (by decide) run_fs2_eq (by decide)

end CheckTranslations
